import Mathlib

/-!
Verification of the webhook handler in `src/functions/index.js`: the `ssml`
tagged-template escaper, the example catalog, the canned responses and the
intent dispatch table. Strings are modelled as lists of characters, the
fallible parts of the JavaScript (a `reduce` over an empty array, an
out-of-range dynamic value, an absent catalog key) as `Option`.
-/

namespace DialogflowSSML

/-- Strings, modelled as lists of characters. -/
abbrev Str : Type := List Char

/-- The character class matched by the whitespace regex class in JavaScript
(`\t \n \v \f \r`, space, and the Unicode space separators). -/
def isWs (c : Char) : Bool :=
  c == ' ' || c == '\t' || c == '\n' || c == '\r' || c == '\x0b' || c == '\x0c' ||
  c == '\u00A0' || c == '\u1680' || c == '\u2000' || c == '\u2001' || c == '\u2002' ||
  c == '\u2003' || c == '\u2004' || c == '\u2005' || c == '\u2006' || c == '\u2007' ||
  c == '\u2008' || c == '\u2009' || c == '\u200A' || c == '\u2028' || c == '\u2029' ||
  c == '\u202F' || c == '\u205F' || c == '\u3000' || c == '\uFEFF'

/-- One global single-character regex replacement, as in
`str.replace(/c/g, r)`: every occurrence of `c` becomes `r`; the
replacement text is not rescanned. -/
def replaceChar (c : Char) (r : Str) : Str → Str
  | [] => []
  | d :: rest =>
    if d = c then r ++ replaceChar c r rest else d :: replaceChar c r rest

/-- The four sequential entity replacements applied to each dynamic value
inside `ssml`: `&` then `<` then `>` then `"`. -/
def escape (s : Str) : Str :=
  replaceChar '"' ("&quot;".toList)
    (replaceChar '>' ("&gt;".toList)
      (replaceChar '<' ("&lt;".toList)
        (replaceChar '&' ("&amp;".toList) s)))

/-- `String.prototype.trim`: strip leading and trailing whitespace. -/
def trim (l : Str) : Str :=
  ((l.dropWhile isWs).reverse.dropWhile isWs).reverse

/-- Worker for the whitespace-run collapse `replace(/\s+/g, ' ')`: the flag
records whether the previous character was part of a whitespace run. -/
def collapseGo : Bool → Str → Str
  | _, [] => []
  | prevWs, c :: rest =>
    if isWs c then
      if prevWs then collapseGo true rest else ' ' :: collapseGo true rest
    else c :: collapseGo false rest

/-- `replace(/\s+/g, ' ')`: every maximal whitespace run becomes one space. -/
def collapseWs (l : Str) : Str := collapseGo false l

/-- One global two-character regex replacement, as in
`str.replace(/pq/g, 'r')`: scanning left to right, each occurrence of `p`
followed by `q` becomes the single character `r`, and scanning resumes
after the match. -/
def replace2 (p q r : Char) : Str → Str
  | [] => []
  | [c] => [c]
  | c :: d :: rest =>
    if c = p ∧ d = q then r :: replace2 p q r rest
    else c :: replace2 p q r (d :: rest)

/-- The whitespace post-processing of `ssml`:
`.trim().replace(/\s+/g, ' ').replace(/ </g, '<').replace(/> /g, '>')`. -/
def normalize (s : Str) : Str :=
  replace2 '>' ' ' '>' (replace2 ' ' '<' '<' (collapseWs (trim s)))

/-- The reduce inside `ssml`: starting from the first fragment, append for
each later fragment the escaped dynamic value `inputs[i - 1]` and then the
fragment itself.  A missing dynamic value is `undefined` in JavaScript and
calling `.replace` on it throws, modelled as `none`. -/
def ssmlFold (inputs : List Str) : Str → Nat → List Str → Option Str
  | out, _, [] => some out
  | out, i, str :: rest =>
    match inputs.get? (i - 1) with
    | none => none
    | some v => ssmlFold inputs (out ++ escape v ++ str) (i + 1) rest

/-- The `ssml` tag function: reduce over the template fragments escaping
each dynamic value, then normalize the whitespace.  JavaScript `reduce`
with no initial value throws on an empty array, modelled as `none`. -/
def ssml (template : List Str) (inputs : List Str) : Option Str :=
  match template with
  | [] => none
  | t0 :: rest => (ssmlFold inputs t0 1 rest).map normalize


/-! ## The example catalog and the canned responses -/

def breakTemplate : Str := "
    <speak>
      Step 1, take a deep breath. <break time=\"200ms\" strength=\"weak\"/>
      Step 2, exhale.
    </speak>
  ".toList

def sayAsTemplate : Str := "
    <speak>
      This interprets \"12345\" normally.
      This interprets \"<say-as interpret-as=\"cardinal\">12345</say-as>\" as a cardinal.
      This interprets \"1\" normally.
      This interprets \"<say-as interpret-as=\"ordinal\">1</say-as>\" as an ordinal.
      This interprets \"can\" normally.
      This interprets \"<say-as interpret-as=\"characters\">can</say-as>\" as characters.
      This interprets \"5+1/2\" normally.
      This interprets \"<say-as interpret-as=\"fraction\">5+1/2</say-as>\" as a fraction.
      This interprets \"censored\" normally.
      This interprets \"<say-as interpret-as=\"expletive\">censored</say-as>\" as an expletive.
      This interprets \"10 foot\" normally.
      This interprets \"<say-as interpret-as=\"unit\">10 foot</say-as>\" as a unit.
      This interprets \"abcdefg\" normally.
      This interprets \"<say-as interpret-as=\"verbatim\">abcdefg</say-as>\" as verbatim.
      This interprets \"1960-09-10\" normally.
      This interprets \"<say-as interpret-as=\"date\" format=\"ymd\">1960-09-10</say-as>\" as a date.
      This interprets \"2:30pm\" normally.
      This interprets \"<say-as interpret-as=\"time\" format=\"hms12\">2:30pm</say-as>\" as a time.
      This interprets \"(781) 771-7777\" normally.
      This interprets \"<say-as interpret-as=\"telephone\" format=\"1\">
        (781) 771-7777
      </say-as>\" as a telephone number.
    </speak>
  ".toList

def audioTemplate : Str := "
    <speak>
      <audio src=\"https://actions.google.com/sounds/v1/animals/cat_purr_close.ogg\">
        <desc>Sound of a cat purring.</desc>
        Audio resource for a cat purring failed to load.
      </audio>
    </speak>
  ".toList

def paragraphTemplate : Str := "
    <speak>
      <p>
        <s>This is sentence one.</s>
        <s>This is sentence two.</s>
      </p>
    </speak>
  ".toList

def subTemplate : Str := "
    <speak>
      This is speaking \"W3C\" normally.
      This is speaking \"<sub alias=\"World Wide Web Consortium\">W3C</sub>\" using the sub tag.
    </speak>
  ".toList

def prosodyTemplate : Str := "
    <speak>
      <prosody rate=\"100%\" pitch=\"-2st\">
        My name is <prosody rate=\"slow\">Wonder Woman</prosody>.
      </prosody>
      <break time=\"0.5s\" />
      <prosody pitch=\"+20st\">Hi, my name is lowly worm.</prosody>
      <prosody pitch=\"-10st\">Hi, my name is huckleberry cat.</prosody>
      <break time=\"1.5s\" />Was that fun?
      <prosody rate=\"x-fast\">Hi I\x27m speaking fast.</prosody>
      <prosody rate=\"x-slow\">I\x27m speaking slow.</prosody>
      <prosody volume=\"soft\">I\x27m speaking softly.</prosody>
      <prosody volume=\"x-loud\">I\x27m speaking loud</prosody>
      <prosody pitch=\"+20st\">I\x27m speaking high.</prosody>
      <prosody pitch=\"-20st\">I\x27m speaking deep.</prosody>
    </speak>
  ".toList

def emphasisTemplate : Str := "
    <speak>
      I would like to emphasize the importance of SSML.
      I told you to pick up those toys an hour ago.
      <emphasis>I told you to pick up those toys an hour ago.</emphasis>
      <emphasis level=\"strong\">I told you to pick up those toys an hour ago.</emphasis>
      <emphasis level=\"moderate\">I told you to pick up those toys an hour ago.</emphasis>
      <emphasis level=\"reduced\">I told you to pick up those toys an hour ago.</emphasis>
      <emphasis level=\"none\">I told you to pick up those toys an hour ago.</emphasis>
    </speak>
  ".toList

def speedTemplate : Str := "
    <speak>
      This is without prosody.
      <prosody rate=\"100%\">This is speaking at 100% rate.</prosody>
      <prosody rate=\"150%\">This is speaking at 150% rate.</prosody>
      <prosody rate=\"foo\">This is speaking at normal rate.</prosody>
      <prosody rate=\"200%\">This is speaking at 200% rate.</prosody>
      <prosody rate=\"medium\">This is speaking at medium rate.</prosody>
      <prosody rate=\"300%\">This is speaking at 300% rate.</prosody>
      <prosody rate=\"default\">This is speaking at default rate.</prosody>
      <prosody rate=\"75%\">This is speaking at 75% rate.</prosody>
      <prosody rate=\"50%\">This is speaking at 50% rate.</prosody>
      <prosody rate=\"25%\">This is speaking at 25% rate.</prosody>
      <prosody rate=\"10%\">This is speaking at 10% rate.</prosody>
    </speak>
  ".toList

def volumeTemplate : Str := "
    <speak>
      This is without prosody.
      <prosody volume=\"+5dB\">This is speaking at +5dB volume.</prosody>
      <prosody volume=\"100%\">This is speaking at 100% volume.</prosody>
      <prosody volume=\"loud\">This is speaking at loud volume.</prosody>
      <prosody volume=\"foo\">This is speaking at normal volume.</prosody>
      <prosody volume=\"+10dB\">This is speaking at +10dB volume.</prosody>
      <prosody volume=\"medium\">This is speaking at medium volume.</prosody>
      <prosody volume=\"x-loud\">This is speaking at x-loud volume.</prosody>
      <prosody volume=\"default\">This is speaking at default volume.</prosody>
      <prosody volume=\"-5dB\">This is speaking at -5dB volume.</prosody>
      <prosody volume=\"-10dB\">This is speaking at -10dB volume.</prosody>
      <prosody volume=\"soft\">This is speaking at soft volume.</prosody>
      <prosody volume=\"x-soft\">This is speaking at x-soft volume.</prosody>
    </speak>
  ".toList

def pitchTemplate : Str := "
    <speak>
      This is without prosody.
      <prosody pitch=\"+6st\">This is speaking at +6 semitones pitch.</prosody>
      <prosody pitch=\"foo\">This is speaking at normal pitch.</prosody>
      <prosody pitch=\"high\">This is speaking at high pitch.</prosody>
      <prosody pitch=\"+0st\">This is speaking at +0 semitones pitch.</prosody>
      <prosody pitch=\"medium\">This is speaking at medium pitch.</prosody>
      <prosody pitch=\"default\">This is speaking at default pitch.</prosody>
      <prosody pitch=\"+200%\">This is speaking at +200% pitch.</prosody>
      <prosody pitch=\"+12st\">This is speaking at +12 semitones pitch.</prosody>
      <prosody pitch=\"x-high\">This is speaking at x-high pitch.</prosody>
      <prosody pitch=\"-6st\">This is speaking at -6 semitones pitch.</prosody>
      <prosody pitch=\"low\">This is speaking at low pitch.</prosody>
      <prosody pitch=\"-12st\">This is speaking at -12 semitones pitch.</prosody>
      <prosody pitch=\"x-low\">This is speaking at x-low pitch.</prosody>
    </speak>
  ".toList

/-- The `examples` object: keys in source insertion order, each value the
`ssml`-processed template (no template has a dynamic value). -/
def examples : List (Str × Option Str) :=
  [("break".toList, ssml [breakTemplate] []),
   ("say-as".toList, ssml [sayAsTemplate] []),
   ("audio".toList, ssml [audioTemplate] []),
   ("paragraph".toList, ssml [paragraphTemplate] []),
   ("sub".toList, ssml [subTemplate] []),
   ("prosody".toList, ssml [prosodyTemplate] []),
   ("emphasis".toList, ssml [emphasisTemplate] []),
   ("speed".toList, ssml [speedTemplate] []),
   ("volume".toList, ssml [volumeTemplate] []),
   ("pitch".toList, ssml [pitchTemplate] [])]

/-- A JavaScript value that a property access can evaluate to and a reply
segment can carry: `undefined`, a string, or a non-string object such as a
function inherited from `Object.prototype` (identified here by the property
name through which it was reached). -/
inductive JsVal where
  | undef : JsVal
  | str : Str → JsVal
  | obj : Str → JsVal
deriving DecidableEq

/-- The property names every object literal inherits from
`Object.prototype`: reading one of them on `examples` yields the inherited
function (or, for `__proto__`, the prototype object), not `undefined`. -/
def objectProtoProps : List Str :=
  ["constructor".toList, "hasOwnProperty".toList, "isPrototypeOf".toList,
   "propertyIsEnumerable".toList, "toLocaleString".toList, "toString".toList,
   "valueOf".toList, "__defineGetter__".toList, "__defineSetter__".toList,
   "__lookupGetter__".toList, "__lookupSetter__".toList, "__proto__".toList]

/-- `examples[element]`: JavaScript property access consults the prototype
chain — an own key yields its stored document, a property of
`Object.prototype` (such as `toString`) yields the inherited function or
object, and any other name yields `undefined`. -/
def examplesLookup (e : Str) : JsVal :=
  match examples.find? (fun p => p.1 == e) with
  | some p =>
    match p.2 with
    | some doc => JsVal.str doc
    | none => JsVal.undef
  | none => if e ∈ objectProtoProps then JsVal.obj e else JsVal.undef

/-- `baseResponses.askExample`. -/
def askExample : Str := "Ask me for an example of a SSML element.".toList

/-- `Object.keys(examples)`, in insertion order. -/
def elements : List Str := examples.map (fun p => p.1)

/-- The last element of a list of characters or strings, `none` on `[]`. -/
def lastOpt {α : Type} : List α → Option α
  | [] => none
  | [c] => some c
  | _ :: c :: rest => lastOpt (c :: rest)

/-- `completeResponses.examplesList`. -/
def examplesList : Str :=
  "You can ask me about ".toList
    ++ List.intercalate (", ".toList) elements.dropLast
    ++ ", and ".toList ++ (lastOpt elements).getD [] ++ ['.']

/-- `completeResponses.didNotUnderstand`. -/
def didNotUnderstand : Str :=
  "Sorry, I didn\x27t understand you. ".toList ++ askExample ++ ['.']

/-- `completeResponses.welcome`. -/
def welcome : Str :=
  "Welcome! ".toList ++ askExample ++ [' ']
    ++ "You can say \"give me an example of the prosody element\".".toList

/-- `completeResponses.leadToExample`. -/
def leadToExample (element : Str) : Str :=
  "Ok, here\x27s an SSML example of ".toList ++ element ++ ['.']

/-! ## The intent dispatch table -/

/-- A rich response: the ordered JavaScript values passed to
`addSimpleResponse` and whether `app.ask` keeps the conversation open. -/
structure Reply where
  segments : List JsVal
  expectUserResponse : Bool
deriving DecidableEq

/-- Handler for `Actions.WELCOME`. -/
def welcomeHandler : Reply :=
  Reply.mk [JsVal.str welcome, JsVal.str examplesList] true

/-- Handler for `Actions.TELL_EXAMPLE`: `!element` is true in JavaScript
for both an absent parameter and the empty string. -/
def tellExampleHandler (element : Option Str) : Reply :=
  if element = none ∨ element = some [] then
    Reply.mk [JsVal.str didNotUnderstand, JsVal.str examplesList] true
  else
    Reply.mk [JsVal.str (leadToExample (element.getD [])),
      examplesLookup (element.getD [])] true

/-- Handler for `Actions.UNRECOGNIZED_DEEP_LINK`. -/
def unrecognizedHandler : Reply :=
  Reply.mk [JsVal.str didNotUnderstand, JsVal.str examplesList] true

def welcomeAction : Str := "input.welcome".toList

def tellExampleAction : Str := "tell.example".toList

def unrecognizedAction : Str := "input.unknown".toList

/-- The `actionMap`: dispatch on the intent action string. -/
def actionMap (action : Str) (element : Option Str) : Option Reply :=
  if action = welcomeAction then some welcomeHandler
  else if action = tellExampleAction then some (tellExampleHandler element)
  else if action = unrecognizedAction then some unrecognizedHandler
  else none


/-! ## Specification-side notions used to state the claims -/

/-- The entity substitution of one original character, applied once and
never rescanned — the simultaneous reading of the escaping contract. -/
def entity (c : Char) : Str :=
  if c = '&' then "&amp;".toList
  else if c = '<' then "&lt;".toList
  else if c = '>' then "&gt;".toList
  else if c = '"' then "&quot;".toList
  else [c]

/-- Apply a character-to-string substitution once to every character. -/
def flatRep (f : Char → Str) : Str → Str
  | [] => []
  | c :: rest => f c ++ flatRep f rest

/-- The four characters the escaper reserves. -/
def reserved (c : Char) : Bool :=
  c == '&' || c == '<' || c == '>' || c == '"'

/-- Whether the characters `p` and `q` occur adjacently, in that order. -/
def hasPair (p q : Char) : Str → Bool
  | c :: d :: rest => if c = p ∧ d = q then true else hasPair p q (d :: rest)
  | _ => false

/-- Whether `pat` is an initial segment of the second list. -/
def startsWith : Str → Str → Bool
  | [], _ => true
  | _ :: _, [] => false
  | p :: ps, c :: cs => p == c && startsWith ps cs

/-- The number of positions at which `pat` occurs as a substring. -/
def countInfix (pat : Str) : Str → Nat
  | [] => 0
  | c :: rest => (if startsWith pat (c :: rest) then 1 else 0) + countInfix pat rest

/-- Whitespace-normal form: all whitespace is a plain space, there is no
leading or trailing space, no two adjacent spaces, no space directly
before `<` and none directly after `>`. -/
def wsNormal (s : Str) : Bool :=
  s.all (fun c => !(isWs c) || c == ' ')
  && !(s.head? == some ' ') && !(lastOpt s == some ' ')
  && !(hasPair ' ' ' ' s) && !(hasPair ' ' '<' s) && !(hasPair '>' ' ' s)

/-! ## Helper lemmas: lastOpt, hasPair, dropWhile, trim -/

theorem lastOpt_cons_cons {α : Type} (a b : α) (l : List α) :
    lastOpt (a :: b :: l) = lastOpt (b :: l) := rfl

theorem lastOpt_cons_of_ne_nil {α : Type} (a : α) {l : List α} (h : l ≠ []) :
    lastOpt (a :: l) = lastOpt l := by
  cases l with
  | nil => exact absurd rfl h
  | cons b m => rfl

theorem lastOpt_mem {α : Type} : ∀ {l : List α} {c : α}, lastOpt l = some c → c ∈ l
  | [], _, h => by simp [lastOpt] at h
  | [a], c, h => by
      simp [lastOpt] at h
      simp [h]
  | a :: b :: m, c, h => by
      rw [lastOpt_cons_cons] at h
      exact List.mem_cons_of_mem a (lastOpt_mem h)

theorem lastOpt_append_single {α : Type} (c : α) :
    ∀ (l : List α), lastOpt (l ++ [c]) = some c
  | [] => rfl
  | [a] => rfl
  | a :: b :: m => by
      have h := lastOpt_append_single c (b :: m)
      simpa [List.cons_append, lastOpt_cons_cons] using h

theorem lastOpt_reverse {α : Type} (l : List α) : lastOpt l.reverse = l.head? := by
  cases l with
  | nil => rfl
  | cons a m =>
      rw [List.reverse_cons, lastOpt_append_single]
      rfl

theorem headOpt_reverse {α : Type} (l : List α) : l.reverse.head? = lastOpt l := by
  have h := lastOpt_reverse l.reverse
  rw [List.reverse_reverse] at h
  exact h.symm

/-- Induction principle matching the recursion of `replace2` and `hasPair`. -/
theorem twoStepInduction {P : Str → Prop} (h0 : P []) (h1 : ∀ c, P [c])
    (h2 : ∀ c d rest, P rest → P (d :: rest) → P (c :: d :: rest)) :
    ∀ l, P l
  | [] => h0
  | [c] => h1 c
  | c :: d :: rest =>
      h2 c d rest (twoStepInduction h0 h1 h2 rest)
        (twoStepInduction h0 h1 h2 (d :: rest))

theorem hasPair_cons₂ (p q c d : Char) (rest : Str) :
    hasPair p q (c :: d :: rest)
      = if c = p ∧ d = q then true else hasPair p q (d :: rest) := rfl

theorem hasPair_tail {p q c : Char} {l : Str} (h : hasPair p q (c :: l) = false) :
    hasPair p q l = false := by
  cases l with
  | nil => rfl
  | cons d m =>
      rw [hasPair_cons₂] at h
      split at h
      · exact Bool.noConfusion h
      · exact h

theorem hasPair_head {p q c d : Char} {rest : Str}
    (h : hasPair p q (c :: d :: rest) = false) : ¬(c = p ∧ d = q) := by
  intro hcd
  rw [hasPair_cons₂, if_pos hcd] at h
  exact Bool.noConfusion h

theorem head?_dropWhile {p : Char → Bool} : ∀ {l : Str} {c : Char},
    (List.dropWhile p l).head? = some c → p c = false
  | [], _, h => by simp [List.dropWhile] at h
  | a :: m, c, h => by
      rw [List.dropWhile_cons] at h
      split at h
      · exact head?_dropWhile h
      · rename_i hpa
        simp at hpa h
        subst h
        exact hpa

theorem lastOpt_dropWhile {p : Char → Bool} : ∀ {l : Str} {c : Char},
    lastOpt (List.dropWhile p l) = some c → lastOpt l = some c
  | [], _, h => by simp [List.dropWhile, lastOpt] at h
  | a :: m, c, h => by
      rw [List.dropWhile_cons] at h
      split at h
      · have h2 := lastOpt_dropWhile h
        have hm : m ≠ [] := by
          intro he
          subst he
          simp [lastOpt] at h2
        rw [lastOpt_cons_of_ne_nil a hm]
        exact h2
      · exact h

theorem trim_head {l : Str} {c : Char} (h : (trim l).head? = some c) :
    isWs c = false := by
  unfold trim at h
  rw [headOpt_reverse] at h
  have h2 := lastOpt_dropWhile h
  rw [lastOpt_reverse] at h2
  exact head?_dropWhile h2

theorem trim_last {l : Str} {c : Char} (h : lastOpt (trim l) = some c) :
    isWs c = false := by
  unfold trim at h
  rw [lastOpt_reverse] at h
  exact head?_dropWhile h

/-! ## Lemmas about the whitespace collapse -/

theorem collapseGo_cons_ws_true {c : Char} (rest : Str) (hc : isWs c = true) :
    collapseGo true (c :: rest) = collapseGo true rest := by
  simp [collapseGo, hc]

theorem collapseGo_cons_ws_false {c : Char} (rest : Str) (hc : isWs c = true) :
    collapseGo false (c :: rest) = ' ' :: collapseGo true rest := by
  simp [collapseGo, hc]

theorem collapseGo_cons_not_ws (b : Bool) {c : Char} (rest : Str)
    (hc : isWs c = false) : collapseGo b (c :: rest) = c :: collapseGo false rest := by
  simp [collapseGo, hc]

theorem lastOpt_isSome {α : Type} : ∀ (a : α) (l : List α),
    ∃ z, lastOpt (a :: l) = some z
  | a, [] => ⟨a, rfl⟩
  | a, b :: m => by
      obtain ⟨z, hz⟩ := lastOpt_isSome b m
      exact ⟨z, by rw [lastOpt_cons_cons]; exact hz⟩

theorem collapseGo_true_head : ∀ {l : Str} {c : Char},
    (collapseGo true l).head? = some c → isWs c = false
  | [], _, h => by simp [collapseGo] at h
  | a :: m, c, h => by
      by_cases ha : isWs a = true
      · rw [collapseGo_cons_ws_true m ha] at h
        exact collapseGo_true_head h
      · have ha' : isWs a = false := by simpa using ha
        rw [collapseGo_cons_not_ws true m ha'] at h
        simp at h
        subst h
        exact ha'

theorem collapseGo_head {b : Bool} {l : Str} {c : Char}
    (hl : ∀ x, l.head? = some x → isWs x = false)
    (h : (collapseGo b l).head? = some c) : isWs c = false := by
  cases l with
  | nil => simp [collapseGo] at h
  | cons a m =>
      have ha : isWs a = false := hl a rfl
      rw [collapseGo_cons_not_ws b m ha] at h
      simp at h
      subst h
      exact ha

theorem collapseGo_noPair_space : ∀ (l : Str) (b : Bool),
    hasPair ' ' ' ' (collapseGo b l) = false
  | [], _ => rfl
  | a :: m, b => by
      by_cases ha : isWs a = true
      · cases b with
        | true =>
            rw [collapseGo_cons_ws_true m ha]
            exact collapseGo_noPair_space m true
        | false =>
            rw [collapseGo_cons_ws_false m ha]
            cases hX : collapseGo true m with
            | nil => rfl
            | cons x xs =>
                rw [hasPair_cons₂, if_neg]
                · have h2 := collapseGo_noPair_space m true
                  rw [hX] at h2
                  exact h2
                · intro hcd
                  have hx : isWs x = false :=
                    collapseGo_true_head (by rw [hX]; rfl)
                  rw [hcd.2] at hx
                  simp [isWs] at hx
      · have ha' : isWs a = false := by simpa using ha
        rw [collapseGo_cons_not_ws b m ha']
        cases hX : collapseGo false m with
        | nil => rfl
        | cons x xs =>
            rw [hasPair_cons₂, if_neg]
            · have h2 := collapseGo_noPair_space m false
              rw [hX] at h2
              exact h2
            · intro hcd
              rw [hcd.1] at ha'
              simp [isWs] at ha'

theorem collapseGo_mem : ∀ {l : Str} {b : Bool} {c : Char},
    c ∈ collapseGo b l → isWs c = true → c = ' '
  | [], b, c, h, _ => by simp [collapseGo] at h
  | a :: m, b, c, h, hws => by
      by_cases ha : isWs a = true
      · cases b with
        | true =>
            rw [collapseGo_cons_ws_true m ha] at h
            exact collapseGo_mem h hws
        | false =>
            rw [collapseGo_cons_ws_false m ha] at h
            rcases List.mem_cons.mp h with h1 | h1
            · exact h1
            · exact collapseGo_mem h1 hws
      · have ha' : isWs a = false := by simpa using ha
        rw [collapseGo_cons_not_ws b m ha'] at h
        rcases List.mem_cons.mp h with h1 | h1
        · subst h1
          rw [hws] at ha'
          exact Bool.noConfusion ha'
        · exact collapseGo_mem h1 hws

theorem collapseGo_ne_nil : ∀ {l : Str} {b : Bool} {x : Char},
    x ∈ l → isWs x = false → collapseGo b l ≠ []
  | [], _, x, hx, _ => absurd hx (List.not_mem_nil x)
  | a :: m, b, x, hx, hxw => by
      by_cases ha : isWs a = true
      · have hxm : x ∈ m := by
          rcases List.mem_cons.mp hx with h1 | h1
          · subst h1
            rw [ha] at hxw
            exact Bool.noConfusion hxw
          · exact h1
        cases b with
        | true =>
            rw [collapseGo_cons_ws_true m ha]
            exact collapseGo_ne_nil hxm hxw
        | false =>
            rw [collapseGo_cons_ws_false m ha]
            simp
      · have ha' : isWs a = false := by simpa using ha
        rw [collapseGo_cons_not_ws b m ha']
        simp

theorem collapseGo_last : ∀ {l : Str} {b : Bool},
    (∀ x, lastOpt l = some x → isWs x = false) → ∀ {c : Char},
    lastOpt (collapseGo b l) = some c → isWs c = false
  | [], b, _, c, h => by simp [collapseGo, lastOpt] at h
  | [a], b, hl, c, h => by
      have ha : isWs a = false := hl a rfl
      rw [collapseGo_cons_not_ws b [] ha] at h
      simp [collapseGo, lastOpt] at h
      subst h
      exact ha
  | a :: a2 :: m, b, hl, c, h => by
      have hl2 : ∀ x, lastOpt (a2 :: m) = some x → isWs x = false := by
        intro x hx
        exact hl x (by rw [lastOpt_cons_cons]; exact hx)
      obtain ⟨z, hz⟩ := lastOpt_isSome a2 m
      have hzw : isWs z = false := hl2 z hz
      have hzm : z ∈ a2 :: m := lastOpt_mem hz
      by_cases ha : isWs a = true
      · cases b with
        | true =>
            rw [collapseGo_cons_ws_true (a2 :: m) ha] at h
            exact collapseGo_last hl2 h
        | false =>
            rw [collapseGo_cons_ws_false (a2 :: m) ha] at h
            have hne : collapseGo true (a2 :: m) ≠ [] := collapseGo_ne_nil hzm hzw
            rw [lastOpt_cons_of_ne_nil ' ' hne] at h
            exact collapseGo_last hl2 h
      · have ha' : isWs a = false := by simpa using ha
        rw [collapseGo_cons_not_ws b (a2 :: m) ha'] at h
        have hne : collapseGo false (a2 :: m) ≠ [] := collapseGo_ne_nil hzm hzw
        rw [lastOpt_cons_of_ne_nil a hne] at h
        exact collapseGo_last hl2 h

/-! ## Lemmas about the two-character replacements -/

theorem replace2_cons₂ (p q r c d : Char) (rest : Str) :
    replace2 p q r (c :: d :: rest)
      = if c = p ∧ d = q then r :: replace2 p q r rest
        else c :: replace2 p q r (d :: rest) := rfl

theorem replace2_ne_nil {p q r : Char} : ∀ {l : Str}, l ≠ [] → replace2 p q r l ≠ []
  | [], h => absurd rfl h
  | [c], _ => by simp [replace2]
  | c :: d :: rest, _ => by
      rw [replace2_cons₂]
      split <;> simp

theorem replace2_head (p q r : Char) : ∀ (c : Char) (l : Str),
    (replace2 p q r (c :: l)).head? = some c
      ∨ ((replace2 p q r (c :: l)).head? = some r ∧ c = p)
  | _, [] => Or.inl rfl
  | c, d :: rest => by
      rw [replace2_cons₂]
      by_cases hcd : c = p ∧ d = q
      · rw [if_pos hcd]
        exact Or.inr ⟨rfl, hcd.1⟩
      · rw [if_neg hcd]
        exact Or.inl rfl

theorem replace2_last (p q r : Char) (l : Str) :
    lastOpt (replace2 p q r l) = lastOpt l
      ∨ lastOpt (replace2 p q r l) = some r := by
  induction l using twoStepInduction with
  | h0 => exact Or.inl rfl
  | h1 c => exact Or.inl rfl
  | h2 c d rest ih1 ih2 =>
      rw [replace2_cons₂]
      by_cases hcd : c = p ∧ d = q
      · rw [if_pos hcd]
        cases rest with
        | nil => exact Or.inr rfl
        | cons x xs =>
            have hne : replace2 p q r (x :: xs) ≠ [] := replace2_ne_nil (by simp)
            rw [lastOpt_cons_of_ne_nil r hne, lastOpt_cons_cons,
              lastOpt_cons_of_ne_nil d (by simp)]
            exact ih1
      · rw [if_neg hcd]
        have hne : replace2 p q r (d :: rest) ≠ [] := replace2_ne_nil (by simp)
        rw [lastOpt_cons_of_ne_nil c hne, lastOpt_cons_cons]
        exact ih2

theorem replace2_mem (p q r : Char) {l : Str} {c : Char} :
    c ∈ replace2 p q r l → c ∈ l ∨ c = r := by
  induction l using twoStepInduction with
  | h0 =>
      intro h
      simp [replace2] at h
  | h1 x =>
      intro h
      simp [replace2] at h
      exact Or.inl (by simp [h])
  | h2 x d rest ih1 ih2 =>
      intro h
      rw [replace2_cons₂] at h
      by_cases hcd : x = p ∧ d = q
      · rw [if_pos hcd] at h
        rcases List.mem_cons.mp h with h1 | h1
        · exact Or.inr h1
        · rcases ih1 h1 with h2' | h2'
          · exact Or.inl (by simp [h2'])
          · exact Or.inr h2'
      · rw [if_neg hcd] at h
        rcases List.mem_cons.mp h with h1 | h1
        · exact Or.inl (by simp [h1])
        · rcases ih2 h1 with h2' | h2'
          · exact Or.inl (List.mem_cons_of_mem x h2')
          · exact Or.inr h2'

theorem replace2_id (p q r : Char) {l : Str} :
    hasPair p q l = false → replace2 p q r l = l := by
  induction l using twoStepInduction with
  | h0 => intro _; rfl
  | h1 c => intro _; rfl
  | h2 c d rest ih1 ih2 =>
      intro h
      rw [replace2_cons₂, if_neg (hasPair_head h), ih2 (hasPair_tail h)]

theorem replace2_preserve_noPair {a b p q r : Char} (hra : r ≠ a) (hrb : r ≠ b)
    {l : Str} : hasPair a b l = false → hasPair a b (replace2 p q r l) = false := by
  induction l using twoStepInduction with
  | h0 => intro _; rfl
  | h1 c => intro _; rfl
  | h2 c d rest ih1 ih2 =>
      intro h
      rw [replace2_cons₂]
      by_cases hcd : c = p ∧ d = q
      · rw [if_pos hcd]
        cases hX : replace2 p q r rest with
        | nil => rfl
        | cons x xs =>
            rw [hasPair_cons₂, if_neg (fun hc => hra hc.1), ← hX]
            exact ih1 (hasPair_tail (hasPair_tail h))
      · rw [if_neg hcd]
        cases hX : replace2 p q r (d :: rest) with
        | nil => exact absurd hX (replace2_ne_nil (by simp))
        | cons x xs =>
            have hx : x = d ∨ (x = r ∧ d = p) := by
              rcases replace2_head p q r d rest with h1 | h1
              · rw [hX] at h1
                simp at h1
                exact Or.inl h1
              · rw [hX] at h1
                simp at h1
                exact Or.inr h1
            have hneg : ¬(c = a ∧ x = b) := by
              intro hc
              rcases hx with h1 | h1
              · exact hasPair_head h ⟨hc.1, h1 ▸ hc.2⟩
              · exact hrb (h1.1 ▸ hc.2)
            rw [hasPair_cons₂, if_neg hneg, ← hX]
            exact ih2 (hasPair_tail h)

theorem replace2_no_space_lt {l : Str} :
    hasPair ' ' ' ' l = false →
    hasPair ' ' '<' (replace2 ' ' '<' '<' l) = false := by
  induction l using twoStepInduction with
  | h0 => intro _; rfl
  | h1 c => intro _; rfl
  | h2 c d rest ih1 ih2 =>
      intro h
      rw [replace2_cons₂]
      by_cases hcd : c = ' ' ∧ d = '<'
      · rw [if_pos hcd]
        cases hX : replace2 ' ' '<' '<' rest with
        | nil => rfl
        | cons x xs =>
            rw [hasPair_cons₂, if_neg (by simp), ← hX]
            exact ih1 (hasPair_tail (hasPair_tail h))
      · rw [if_neg hcd]
        cases hX : replace2 ' ' '<' '<' (d :: rest) with
        | nil => exact absurd hX (replace2_ne_nil (by simp))
        | cons x xs =>
            have hx : x = d ∨ (x = '<' ∧ d = ' ') := by
              rcases replace2_head ' ' '<' '<' d rest with h1 | h1
              · rw [hX] at h1
                simp at h1
                exact Or.inl h1
              · rw [hX] at h1
                simp at h1
                exact Or.inr h1
            have hneg : ¬(c = ' ' ∧ x = '<') := by
              intro hc
              rcases hx with h1 | h1
              · exact hcd ⟨hc.1, h1 ▸ hc.2⟩
              · exact hasPair_head h ⟨hc.1, h1.2⟩
            rw [hasPair_cons₂, if_neg hneg, ← hX]
            exact ih2 (hasPair_tail h)

theorem replace2_no_gt_space {l : Str} :
    hasPair ' ' ' ' l = false →
    hasPair '>' ' ' (replace2 '>' ' ' '>' l) = false := by
  induction l using twoStepInduction with
  | h0 => intro _; rfl
  | h1 c => intro _; rfl
  | h2 c d rest ih1 ih2 =>
      intro h
      rw [replace2_cons₂]
      by_cases hcd : c = '>' ∧ d = ' '
      · rw [if_pos hcd]
        cases rest with
        | nil => decide
        | cons y ys =>
            cases hX : replace2 '>' ' ' '>' (y :: ys) with
            | nil => exact absurd hX (replace2_ne_nil (by simp))
            | cons x xs =>
                have hy : ¬(d = ' ' ∧ y = ' ') := hasPair_head (hasPair_tail h)
                have hyne : y ≠ ' ' := fun hy' => hy ⟨hcd.2, hy'⟩
                have hx : x = y ∨ (x = '>' ∧ y = '>') := by
                  rcases replace2_head '>' ' ' '>' y ys with h1 | h1
                  · rw [hX] at h1
                    simp at h1
                    exact Or.inl h1
                  · rw [hX] at h1
                    simp at h1
                    exact Or.inr h1
                have hneg : ¬('>' = '>' ∧ x = ' ') := by
                  intro hc
                  rcases hx with h1 | h1
                  · exact hyne (h1 ▸ hc.2)
                  · rw [h1.1] at hc
                    exact absurd hc.2 (by decide)
                rw [hasPair_cons₂, if_neg hneg, ← hX]
                exact ih1 (hasPair_tail (hasPair_tail h))
      · rw [if_neg hcd]
        cases hX : replace2 '>' ' ' '>' (d :: rest) with
        | nil => exact absurd hX (replace2_ne_nil (by simp))
        | cons x xs =>
            have hx : x = d ∨ (x = '>' ∧ d = '>') := by
              rcases replace2_head '>' ' ' '>' d rest with h1 | h1
              · rw [hX] at h1
                simp at h1
                exact Or.inl h1
              · rw [hX] at h1
                simp at h1
                exact Or.inr h1
            have hneg : ¬(c = '>' ∧ x = ' ') := by
              intro hc
              rcases hx with h1 | h1
              · exact hcd ⟨hc.1, h1 ▸ hc.2⟩
              · rw [h1.1] at hc
                exact absurd hc.2 (by decide)
            rw [hasPair_cons₂, if_neg hneg, ← hX]
            exact ih2 (hasPair_tail h)

/-! ## Whitespace invariants of the full normalization -/

theorem replace2_head_ws {p q r : Char} (hr : isWs r = false) {l : Str}
    (hl : ∀ x, l.head? = some x → isWs x = false) {c : Char}
    (h : (replace2 p q r l).head? = some c) : isWs c = false := by
  cases l with
  | nil => simp [replace2] at h
  | cons a m =>
      rcases replace2_head p q r a m with h1 | h1
      · rw [h1] at h
        simp at h
        subst h
        exact hl a rfl
      · rw [h1.1] at h
        simp at h
        subst h
        exact hr

theorem replace2_last_ws {p q r : Char} (hr : isWs r = false) {l : Str}
    (hl : ∀ x, lastOpt l = some x → isWs x = false) {c : Char}
    (h : lastOpt (replace2 p q r l) = some c) : isWs c = false := by
  rcases replace2_last p q r l with h1 | h1
  · rw [h1] at h
    exact hl c h
  · rw [h1] at h
    simp at h
    subst h
    exact hr

theorem replace2_mem_ws {p q r : Char} (hr : isWs r = false) {l : Str}
    (hl : ∀ x, x ∈ l → isWs x = true → x = ' ') {c : Char}
    (hc : c ∈ replace2 p q r l) (hws : isWs c = true) : c = ' ' := by
  rcases replace2_mem p q r hc with h1 | h1
  · exact hl c h1 hws
  · subst h1
    rw [hws] at hr
    exact Bool.noConfusion hr

theorem normalize_head {s : Str} {c : Char}
    (h : (normalize s).head? = some c) : isWs c = false := by
  unfold normalize at h
  refine replace2_head_ws (by decide) ?_ h
  intro x hx
  refine replace2_head_ws (by decide) ?_ hx
  intro y hy
  unfold collapseWs at hy
  exact collapseGo_head (fun z hz => trim_head hz) hy

theorem normalize_last {s : Str} {c : Char}
    (h : lastOpt (normalize s) = some c) : isWs c = false := by
  unfold normalize at h
  refine replace2_last_ws (by decide) ?_ h
  intro x hx
  refine replace2_last_ws (by decide) ?_ hx
  intro y hy
  unfold collapseWs at hy
  exact collapseGo_last (fun z hz => trim_last hz) hy

theorem normalize_mem {s : Str} {c : Char}
    (hc : c ∈ normalize s) (hws : isWs c = true) : c = ' ' := by
  unfold normalize at hc
  refine replace2_mem_ws (by decide) ?_ hc hws
  intro x hx hxws
  refine replace2_mem_ws (by decide) ?_ hx hxws
  intro y hy hyws
  unfold collapseWs at hy
  exact collapseGo_mem hy hyws

theorem normalize_noPair_space (s : Str) :
    hasPair ' ' ' ' (normalize s) = false := by
  unfold normalize
  refine replace2_preserve_noPair (by decide) (by decide)
    (replace2_preserve_noPair (by decide) (by decide) ?_)
  exact collapseGo_noPair_space (trim s) false

theorem normalize_noPair_lt (s : Str) :
    hasPair ' ' '<' (normalize s) = false := by
  unfold normalize
  refine replace2_preserve_noPair (by decide) (by decide) ?_
  exact replace2_no_space_lt (collapseGo_noPair_space (trim s) false)

theorem normalize_noPair_gt (s : Str) :
    hasPair '>' ' ' (normalize s) = false := by
  unfold normalize
  refine replace2_no_gt_space ?_
  exact replace2_preserve_noPair (by decide) (by decide)
    (collapseGo_noPair_space (trim s) false)

/-! ## The escaping as a once-per-character substitution -/

theorem replaceChar_append (c : Char) (r : Str) : ∀ (xs ys : Str),
    replaceChar c r (xs ++ ys) = replaceChar c r xs ++ replaceChar c r ys
  | [], ys => rfl
  | d :: rest, ys => by
      by_cases hd : d = c
      · simp [replaceChar, hd, replaceChar_append c r rest ys, List.append_assoc]
      · simp [replaceChar, hd, replaceChar_append c r rest ys]

theorem escape_cons (c : Char) (s : Str) :
    escape (c :: s) = entity c ++ escape s := by
  unfold escape
  have e1 : replaceChar '&' ("&amp;".toList) (c :: s)
      = replaceChar '&' ("&amp;".toList) [c]
        ++ replaceChar '&' ("&amp;".toList) s := by
    rw [← replaceChar_append]
    rfl
  rw [e1, replaceChar_append, replaceChar_append, replaceChar_append]
  congr 1
  by_cases h1 : c = '&'
  · subst h1
    decide
  by_cases h2 : c = '<'
  · subst h2
    decide
  by_cases h3 : c = '>'
  · subst h3
    decide
  by_cases h4 : c = '"'
  · subst h4
    decide
  simp [replaceChar, entity, h1, h2, h3, h4]

theorem escape_eq_flatRep : ∀ (s : Str), escape s = flatRep entity s
  | [] => rfl
  | c :: s => by
      rw [escape_cons, escape_eq_flatRep s]
      rfl

theorem entity_of_unreserved {c : Char} (h : reserved c = false) : entity c = [c] := by
  simp [reserved] at h
  obtain ⟨⟨⟨h1, h2⟩, h3⟩, h4⟩ := h
  simp [entity, h1, h2, h3, h4]

theorem flatRep_id {f : Char → Str} : ∀ {s : Str},
    (∀ c ∈ s, f c = [c]) → flatRep f s = s
  | [], _ => rfl
  | c :: s, h => by
      simp only [flatRep]
      rw [h c (by simp), flatRep_id (fun d hd => h d (List.mem_cons_of_mem c hd))]
      rfl

theorem escape_of_safe {s : Str} (h : ∀ c ∈ s, reserved c = false) : escape s = s := by
  rw [escape_eq_flatRep]
  exact flatRep_id (fun c hc => entity_of_unreserved (h c hc))

/-! ## Identity of the normalization on already-normal text -/

theorem mem_of_headOpt {α : Type} {l : List α} {c : α} (h : l.head? = some c) :
    c ∈ l := by
  cases l with
  | nil => simp at h
  | cons a m =>
      simp at h
      subst h
      exact List.mem_cons_self a m

theorem collapseGo_id : ∀ {l : Str},
    (∀ c ∈ l, isWs c = true → c = ' ') → hasPair ' ' ' ' l = false →
    collapseGo false l = l ∧ (l.head? ≠ some ' ' → collapseGo true l = l)
  | [], _, _ => ⟨rfl, fun _ => rfl⟩
  | a :: m, hmem, hpair => by
      have hmem' : ∀ c ∈ m, isWs c = true → c = ' ' :=
        fun c hc => hmem c (List.mem_cons_of_mem a hc)
      obtain ⟨ihf, iht⟩ := collapseGo_id hmem' (hasPair_tail hpair)
      by_cases ha : isWs a = true
      · have ha' : a = ' ' := hmem a (by simp) ha
        subst ha'
        have hm : m.head? ≠ some ' ' := by
          cases m with
          | nil => simp
          | cons y ys =>
              intro hy
              simp at hy
              exact hasPair_head hpair ⟨rfl, hy⟩
        refine ⟨?_, ?_⟩
        · rw [collapseGo_cons_ws_false m ha, iht hm]
        · intro hh
          exact absurd rfl hh
      · have ha' : isWs a = false := by simpa using ha
        refine ⟨?_, ?_⟩
        · rw [collapseGo_cons_not_ws false m ha', ihf]
        · intro _
          rw [collapseGo_cons_not_ws true m ha', ihf]

theorem dropWhile_id {p : Char → Bool} {l : Str}
    (h : ∀ c, l.head? = some c → p c = false) : List.dropWhile p l = l := by
  cases l with
  | nil => rfl
  | cons a m => simp [List.dropWhile_cons, h a rfl]

theorem trim_id {l : Str}
    (hh : ∀ c, l.head? = some c → isWs c = false)
    (hl : ∀ c, lastOpt l = some c → isWs c = false) : trim l = l := by
  have hr : ∀ c, (l.reverse).head? = some c → isWs c = false := by
    intro c hc
    rw [headOpt_reverse] at hc
    exact hl c hc
  unfold trim
  rw [dropWhile_id hh, dropWhile_id hr, List.reverse_reverse]

theorem normalize_id {s : Str} (h : wsNormal s = true) : normalize s = s := by
  unfold wsNormal at h
  simp only [Bool.and_eq_true] at h
  obtain ⟨⟨⟨⟨⟨hall, hhead⟩, hlast⟩, hp1⟩, hp2⟩, hp3⟩ := h
  have hmem : ∀ c ∈ s, isWs c = true → c = ' ' := by
    intro c hc hw
    have hx := List.all_eq_true.mp hall c hc
    simp [hw] at hx
    exact hx
  have hh : ∀ c, s.head? = some c → isWs c = false := by
    intro c hc
    by_cases hcw : isWs c = true
    · have hcs : c = ' ' := hmem c (mem_of_headOpt hc) hcw
      subst hcs
      rw [hc] at hhead
      simp at hhead
    · simpa using hcw
  have hl : ∀ c, lastOpt s = some c → isWs c = false := by
    intro c hc
    by_cases hcw : isWs c = true
    · have hcs : c = ' ' := hmem c (lastOpt_mem hc) hcw
      subst hcs
      rw [hc] at hlast
      simp at hlast
    · simpa using hcw
  have htrim : trim s = s := trim_id hh hl
  have hcoll : collapseGo false s = s :=
    (collapseGo_id hmem (by simpa using hp1)).1
  unfold normalize collapseWs
  rw [htrim, hcoll, replace2_id ' ' '<' '<' (by simpa using hp2),
    replace2_id '>' ' ' '>' (by simpa using hp3)]

/-! ## Totality of the fold on well-formed templates -/

theorem ssmlFold_total (inputs : List Str) : ∀ (rest : List Str) (j : Nat) (out : Str),
    j + rest.length ≤ inputs.length →
    ∃ o, ssmlFold inputs out (j + 1) rest = some o
  | [], _, out, _ => ⟨out, rfl⟩
  | str :: rest, j, out, h => by
      have hj : j < inputs.length := by
        simp [List.length_cons] at h
        omega
      obtain ⟨v, hv⟩ : ∃ v, inputs.get? j = some v := by
        cases hg : inputs.get? j with
        | none =>
            rw [List.get?_eq_none] at hg
            omega
        | some v => exact ⟨v, rfl⟩
      have hstep : ssmlFold inputs out (j + 1) (str :: rest)
          = ssmlFold inputs (out ++ escape v ++ str) (j + 1 + 1) rest := by
        simp only [ssmlFold, Nat.add_sub_cancel, hv]
      rw [hstep]
      exact ssmlFold_total inputs rest (j + 1) (out ++ escape v ++ str) (by
        simp [List.length_cons] at h
        omega)

theorem tellExampleHandler_expect (e : Option Str) :
    (tellExampleHandler e).expectUserResponse = true := by
  unfold tellExampleHandler
  split <;> rfl

theorem find?_eq_none_of_not_mem_keys {e : Str} :
    ∀ {l : List (Str × Option Str)}, e ∉ l.map (fun p => p.1) →
    l.find? (fun p => p.1 == e) = none
  | [], _ => rfl
  | p :: rest, h => by
      have h1 : (p.1 == e) = false := by
        simp only [beq_eq_false_iff_ne, ne_eq]
        intro he
        exact h (by simp [he])
      rw [List.find?_cons, h1]
      exact find?_eq_none_of_not_mem_keys
        (fun hm => h (List.mem_cons_of_mem _ hm))

/-! ## The claims -/

/-- C2: applying the escaper to the two literal fragments `<speak>` and
`</speak>` with the single dynamic value `"1 + 1 > 1"` (the quotes being
part of the value) yields exactly `<speak>&quot;1 + 1 &gt; 1&quot;</speak>`:
entities are substituted only in the dynamic segment, never in the
literal fragments. -/
theorem ssml_quote_example :
    ssml ["<speak>".toList, "</speak>".toList] ["\"1 + 1 > 1\"".toList]
      = some ("<speak>&quot;1 + 1 &gt; 1&quot;</speak>".toList) := by
  decide

/-- C3: the sequential replacements of the escaper act as the
once-per-original-character substitution `entity`: each original `&`, `<`,
`>`, `"` is replaced exactly once and the `&` introduced by an earlier
replacement is never re-escaped; in particular `<` becomes `&lt;`, not
`&amp;lt;`. -/
theorem escape_once_per_char :
    (∀ s : Str, escape s = flatRep entity s)
      ∧ escape ("<".toList) = "&lt;".toList
      ∧ escape ("<".toList) ≠ "&amp;lt;".toList :=
  ⟨escape_eq_flatRep, by decide, by decide⟩

/-- C4: every string the escaper returns is whitespace-normal: no leading
or trailing whitespace, every whitespace character left is a plain space
with no two adjacent (each interior run collapsed to one space), no space
directly before `<` and none directly after `>`. -/
theorem ssml_output_normalized (template inputs : List Str) (out : Str)
    (h : ssml template inputs = some out) :
    (∀ c, out.head? = some c → isWs c = false)
      ∧ (∀ c, lastOpt out = some c → isWs c = false)
      ∧ (∀ c ∈ out, isWs c = true → c = ' ')
      ∧ hasPair ' ' ' ' out = false
      ∧ hasPair ' ' '<' out = false
      ∧ hasPair '>' ' ' out = false := by
  cases template with
  | nil => simp [ssml] at h
  | cons t0 rest =>
      simp only [ssml] at h
      cases hf : ssmlFold inputs t0 1 rest with
      | none =>
          rw [hf] at h
          simp at h
      | some raw =>
          rw [hf] at h
          simp at h
          subst h
          exact ⟨fun c hc => normalize_head hc,
            fun c hc => normalize_last hc,
            fun c hc hw => normalize_mem hc hw,
            normalize_noPair_space raw,
            normalize_noPair_lt raw,
            normalize_noPair_gt raw⟩

/-- Witness for C4, at the template of the worked example. -/
theorem ssml_output_normalized_witness :
    (∀ c, ("<speak>&quot;1 + 1 &gt; 1&quot;</speak>".toList).head? = some c →
        isWs c = false)
      ∧ (∀ c, lastOpt ("<speak>&quot;1 + 1 &gt; 1&quot;</speak>".toList) = some c →
          isWs c = false)
      ∧ (∀ c ∈ ("<speak>&quot;1 + 1 &gt; 1&quot;</speak>".toList),
          isWs c = true → c = ' ')
      ∧ hasPair ' ' ' ' ("<speak>&quot;1 + 1 &gt; 1&quot;</speak>".toList) = false
      ∧ hasPair ' ' '<' ("<speak>&quot;1 + 1 &gt; 1&quot;</speak>".toList) = false
      ∧ hasPair '>' ' ' ("<speak>&quot;1 + 1 &gt; 1&quot;</speak>".toList) = false :=
  ssml_output_normalized ["<speak>".toList, "</speak>".toList]
    ["\"1 + 1 > 1\"".toList]
    ("<speak>&quot;1 + 1 &gt; 1&quot;</speak>".toList) (by decide)

/-- C5: the topic list text contains every topic name of the catalog
exactly once, in catalog key order, all names but the last joined by
", ", then ", and " before the last, ending with a period. -/
theorem examplesList_complete :
    examplesList = ("You can ask me about break, say-as, audio, paragraph, "
        ++ "sub, prosody, emphasis, speed, volume, and pitch.").toList
      ∧ elements.all (fun t => countInfix t examplesList == 1) = true
      ∧ lastOpt examplesList = some '.' := by
  refine ⟨by decide, by decide, by decide⟩

/-- C6: a tell-example dispatch with an absent or empty topic parameter
replies with exactly two segments, the apology then the topic list, and
this reply equals the unrecognized-input reply. -/
theorem tellExample_missing_param :
    tellExampleHandler none = unrecognizedHandler
      ∧ tellExampleHandler (some []) = unrecognizedHandler
      ∧ (tellExampleHandler none).segments
          = [JsVal.str didNotUnderstand, JsVal.str examplesList]
      ∧ (tellExampleHandler none).segments.length = 2 := by
  refine ⟨by decide, by decide, by decide, by decide⟩

/-- C9: every dispatch of the action map ends by expecting further user
input — the conversation is never terminated, independent of the request
data. -/
theorem dispatch_always_asks (action : Str) (element : Option Str) (r : Reply)
    (h : actionMap action element = some r) : r.expectUserResponse = true := by
  unfold actionMap at h
  split_ifs at h with h1 h2 h3
  · simp at h
    subst h
    rfl
  · simp at h
    subst h
    exact tellExampleHandler_expect element
  · simp at h
    subst h
    rfl

/-- Witness for C9: the welcome dispatch. -/
theorem dispatch_always_asks_witness : welcomeHandler.expectUserResponse = true :=
  dispatch_always_asks welcomeAction none welcomeHandler (by decide)

/-- C10: the apology ends with two consecutive periods, because a period
is appended to the base sentence which already ends with one; the welcome
text, built from the same base sentence without the extra period, ends
with a single period. -/
theorem response_periods :
    didNotUnderstand = ("Sorry, I didn\x27t understand you. "
        ++ "Ask me for an example of a SSML element..").toList
      ∧ didNotUnderstand.reverse.take 2 = ['.', '.']
      ∧ lastOpt askExample = some '.'
      ∧ didNotUnderstand
          = "Sorry, I didn\x27t understand you. ".toList ++ askExample ++ ['.']
      ∧ welcome.reverse.take 2 = ['.', '"']
      ∧ lastOpt welcome = some '.' := by
  refine ⟨by decide, by decide, by decide, by rfl, by decide, by decide⟩

/-- C1 counterexample: the topic "foo" is present, non-empty and not a
catalog key, yet the tell-example reply is not the apology plus the topic
list. -/
theorem unknownTopic_counterexample :
    "foo".toList ≠ ([] : Str)
      ∧ "foo".toList ∉ elements
      ∧ examplesLookup ("foo".toList) = JsVal.undef
      ∧ (tellExampleHandler (some ("foo".toList))).segments
          ≠ [JsVal.str didNotUnderstand, JsVal.str examplesList] := by
  refine ⟨by decide, by decide, by decide, by decide⟩

/-- C1 amended: on a present, non-empty topic that is not a catalog key
the code takes the found branch: the reply is the lead-in naming that
topic followed by `examples[topic]`, and the conversation continues; that
property access is `undefined` unless the topic names a property
inherited from `Object.prototype` (such as `toString`), in which case the
inherited function or object is the second segment. -/
theorem unknownTopic_found_branch (e : Str) (hne : e ≠ [])
    (hmem : e ∉ elements) :
    tellExampleHandler (some e)
        = Reply.mk [JsVal.str (leadToExample e), examplesLookup e] true
      ∧ examplesLookup e
          = (if e ∈ objectProtoProps then JsVal.obj e else JsVal.undef) := by
  have hfind : examples.find? (fun p => p.1 == e) = none :=
    find?_eq_none_of_not_mem_keys hmem
  constructor
  · unfold tellExampleHandler
    rw [if_neg (by simp [hne])]
    rfl
  · simp [examplesLookup, hfind]

/-- Witness for the amended C1, at the unknown topic "foo" and the
inherited property name "toString". -/
theorem unknownTopic_found_branch_witness :
    (tellExampleHandler (some ("foo".toList))
        = Reply.mk [JsVal.str (leadToExample ("foo".toList)), JsVal.undef] true)
      ∧ (tellExampleHandler (some ("toString".toList))
        = Reply.mk [JsVal.str (leadToExample ("toString".toList)),
            JsVal.obj ("toString".toList)] true) := by
  constructor
  · have h := unknownTopic_found_branch ("foo".toList) (by decide) (by decide)
    rw [h.1, h.2]
    decide
  · have h := unknownTopic_found_branch ("toString".toList) (by decide) (by decide)
    rw [h.1, h.2]
    decide

/-- C7 counterexample: on an empty fragment sequence the JavaScript
`reduce` has no initial value and throws instead of returning a string;
the model returns `none`. -/
theorem ssml_empty_template_fails : ssml [] [] = none := rfl

/-- C7 amended: for every non-empty fragment sequence whose dynamic
values cover each interpolation gap, the escaper returns a string rather
than failing. -/
theorem ssml_total_on_nonempty (t0 : Str) (rest : List Str) (inputs : List Str)
    (h : rest.length ≤ inputs.length) :
    ∃ out, ssml (t0 :: rest) inputs = some out := by
  obtain ⟨o, ho⟩ := ssmlFold_total inputs rest 0 t0 (by omega)
  have ho' : ssmlFold inputs t0 1 rest = some o := ho
  exact ⟨normalize o, by simp [ssml, ho']⟩

/-- Witness for the amended C7: one empty fragment and no dynamic values
degrade to the empty output. -/
theorem ssml_total_on_nonempty_witness :
    (∃ out, ssml [([] : Str)] [] = some out)
      ∧ ssml [([] : Str)] [] = some [] :=
  ⟨ssml_total_on_nonempty [] [] [] (by decide), by decide⟩

/-- C8: on a string with none of the reserved characters and already in
whitespace-normal form, the escaper returns it unchanged, both as a
single literal fragment and as the dynamic value between empty
fragments. -/
theorem ssml_idempotent_on_safe (s : Str)
    (hsafe : s.all (fun c => !(reserved c)) = true)
    (hnorm : wsNormal s = true) :
    ssml [s] [] = some s ∧ ssml [[], []] [s] = some s := by
  have hres : ∀ c ∈ s, reserved c = false := by
    intro c hc
    have hx := List.all_eq_true.mp hsafe c hc
    simpa using hx
  have hesc : escape s = s := escape_of_safe hres
  have hnid : normalize s = s := normalize_id hnorm
  constructor
  · show (ssmlFold [] s 1 []).map normalize = some s
    simp [ssmlFold, hnid]
  · show (ssmlFold [s] [] 1 [[]]).map normalize = some s
    have hstep : ssmlFold [s] [] 1 [[]] = some (escape s) := by
      simp [ssmlFold]
    rw [hstep, hesc]
    simp [hnid]

/-- Witness for C8, on the safe normal text "hello world". -/
theorem ssml_idempotent_on_safe_witness :
    ssml ["hello world".toList] [] = some ("hello world".toList)
      ∧ ssml [[], []] ["hello world".toList] = some ("hello world".toList) :=
  ssml_idempotent_on_safe ("hello world".toList) (by decide) (by decide)

end DialogflowSSML
